import Mathlib

/-!
Shallow embedding of `src/transcriber.py` (class `Transcriber`).

Text is modelled as `List Char`.  Python's regex token classes are modelled by
`isWordChar` (Python `\w`), `isSpaceChar` (Python `\s`) and the residual
punctuation class; the classification is faithful on the character set that
occurs in this repository plus the Unicode case-equivalents `re.IGNORECASE`
brings into play (ASCII, the decomposed diacritic marks of the PI forms —
the combining caron U+032C is not a word character in Python's `re`, which is
what makes the preliminary replacements re-matchable — and the letters ſ, ı,
İ).  IGNORECASE literal matching is modelled by `sreEquiv`: equal simple
lowercase forms, or membership in one of sre's extended equivalence classes
{i, I, ı, İ} and {s, S, ſ}, so a pattern like `\bthis\b` also matches `thiſ`,
whose `str.lower` image then misses the replacement table.

A Python expression that can raise (out-of-range indexing, `KeyError`,
re.sub callbacks returning `None`) is modelled as an `Option` returning
`none` at exactly the raising points.
-/

namespace Transcriber

abbrev Str := List Char

def toStr (s : String) : Str := s.data

/-- Python `\w` on the character set used by this repository, including the
Unicode case-equivalents that `re.IGNORECASE` drags into play: the long s
(U+017F), the dotless i (U+0131) and the capital dotted İ (U+0130) are
letters, hence word characters.  The source's diacritic data is decomposed:
every other non-ASCII character occurring in it is a combining mark (U+0308,
U+0323, U+032C) or an angle quotation mark (U+2039, U+203A), and none of
those is a word character in Python's `re`. -/
def isWordChar (c : Char) : Bool :=
  c.isAlphanum || c = '_' || c = 'ſ' || c = 'ı' || c = 'İ'

/-- Python `\s` (space, tab, newline, carriage return, vertical tab, form
feed; no other whitespace occurs in the repository's character set). -/
def isSpaceChar (c : Char) : Bool :=
  c = ' ' || c = '\t' || c = '\n' || c = '\r' || c = '\x0B' || c = '\x0C'

/-- Token class of a character: 0 = word, 1 = whitespace, 2 = other. -/
def charClass (c : Char) : Nat :=
  if isWordChar c then 0 else if isSpaceChar c then 1 else 2

/-- Python `str.lower` on one character; the combining marks and quotation
marks used by the PI data are uncased and map to themselves. -/
def pyToLower (c : Char) : Char :=
  if c.isUpper then c.toLower else c

/-- Python `str.upper` on one character. -/
def pyToUpper (c : Char) : Char :=
  if c.isLower then c.toUpper else c

def isUpperChar (c : Char) : Bool := c.isUpper

def isLowerChar (c : Char) : Bool := c.isLower

def isCasedChar (c : Char) : Bool := isUpperChar c || isLowerChar c

def lowerStr (s : Str) : Str := s.map pyToLower

def upperStr (s : Str) : Str := s.map pyToUpper

/-- Python `str.isupper`: at least one cased character and no lowercase one. -/
def pyIsUpper (s : Str) : Bool :=
  s.any isCasedChar && s.all (fun c => !isLowerChar c)

/-- Python `str.istitle`, by the scan CPython performs: uppercase characters
may only follow uncased ones, lowercase only cased ones, and at least one
cased character must occur. -/
def pyIsTitleAux : Str → Bool → Bool → Bool
  | [], _, seenCased => seenCased
  | c :: cs, prevCased, seenCased =>
    if isUpperChar c then !prevCased && pyIsTitleAux cs true true
    else if isLowerChar c then prevCased && pyIsTitleAux cs true true
    else pyIsTitleAux cs false seenCased

def pyIsTitle (s : Str) : Bool := pyIsTitleAux s false false

/-- Python `str.capitalize`: first character uppercased, the rest lowercased. -/
def pyCapitalize (s : Str) : Str :=
  match s with
  | [] => []
  | c :: cs => pyToUpper c :: lowerStr cs

/-- First character uppercased, the rest untouched (the `replacement[0].upper()
+ replacement[1:]` idiom of `update_words_for_piss_variation`). -/
def upperFirst (s : Str) : Str :=
  match s with
  | [] => []
  | c :: cs => pyToUpper c :: cs

/-- Python `str.strip`. -/
def pyStrip (s : Str) : Str :=
  ((s.dropWhile isSpaceChar).reverse.dropWhile isSpaceChar).reverse

/-- `re.findall(r'\w+|[^\w\s]+|\s+', text)`: the partition of the text into
maximal runs of same-class characters. -/
def tokenize : Str → List Str
  | [] => []
  | c :: cs =>
    match tokenize cs with
    | (d :: t) :: ts =>
      if charClass c = charClass d then (c :: d :: t) :: ts
      else [c] :: (d :: t) :: ts
    | ts => [c] :: ts

def isWordTok (t : Str) : Bool :=
  match t with
  | c :: _ => isWordChar c
  | [] => false

/-- The characters outside simple ASCII case folding that `re.IGNORECASE`
identifies with letters of the preliminary keys: long s ſ (U+017F), dotless
ı (U+0131) and capital dotted İ (U+0130). -/
def sreExotic (c : Char) : Bool :=
  c = 'ſ' || c = 'ı' || c = 'İ'

/-- One pattern character matching one input character under `re.IGNORECASE`
(Unicode semantics): their simple lowercase forms coincide, or both lie in
one of CPython sre's extended equivalence classes relevant to the letters in
play — {i, I, ı, İ} (İ simple-lowercases to i) and {s, S, ſ}. -/
def sreEquiv (a b : Char) : Bool :=
  pyToLower a = pyToLower b ||
  ((pyToLower a = 'i' || a = 'ı' || a = 'İ') &&
    (pyToLower b = 'i' || b = 'ı' || b = 'İ')) ||
  ((pyToLower a = 's' || a = 'ſ') && (pyToLower b = 's' || b = 'ſ'))

/-- Whole-token equality under `re.IGNORECASE`: same length, characters
pairwise equivalent. -/
def ignoreCaseEq : Str → Str → Bool
  | [], [] => true
  | a :: as, b :: bs => sreEquiv a b && ignoreCaseEq as bs
  | _, _ => false

/-- Sequential `Option`-valued map (a Python loop that may raise). -/
def mapOpt {α β : Type} (f : α → Option β) : List α → Option (List β)
  | [] => some []
  | a :: l =>
    match f a with
    | none => none
    | some b => (mapOpt f l).map (b :: ·)

/-- Sequential `Option`-valued fold (a Python loop that may raise). -/
def foldOpt {α : Type} (f : Str → α → Option Str) : Str → List α → Option Str
  | s, [] => some s
  | s, a :: l =>
    match f s a with
    | none => none
    | some s2 => foldOpt f s2 l

/-! ### Dictionary model

`dictionary.py` is not part of the transcriber core; per the spec (section 6)
it provides `getEntry(lowercaseWord) -> {whole, PI: mapping<variation,
string|absent>} | absent`, and the transcriber additionally guards against
`None` values inside `PI`, so values are modelled as `Option Str`. -/

structure PiEntry where
  whole : Str
  PI : List (Str × Option Str)
deriving DecidableEq

abbrev PiDict := List (Str × PiEntry)

/-- First-match association-list lookup (Python `dict` access / `in`). -/
def alookup {α : Type} : List (Str × α) → Str → Option α
  | [], _ => none
  | p :: ps, k => if p.1 = k then some p.2 else alookup ps k

/-- `Dictionary.get_entry` / `word in pi_dictionary` / `pi_dictionary[word]`. -/
def getEntry (d : PiDict) (k : Str) : Option PiEntry := alookup d k

/-- The `replacement_dict` comprehension of `update_words_for_piss_variation`:
an entry contributes iff `entry["PI"].get(variation)` is truthy, i.e. the
variation key is present, its value is not `None` and not the empty string. -/
def lookupVariation (d : PiDict) (v : Str) (w : Str) : Option Str :=
  match getEntry d w with
  | none => none
  | some e =>
    match alookup e.PI v with
    | none => none
    | some none => none
    | some (some r) => if r = [] then none else some r

/-! ### `update_words_for_piss_variation` -/

/-- The inner `replace_word` of `update_words_for_piss_variation`.
`none` models a raised `IndexError` (`word[0]` on an empty string, or
`replacement[0]` on an empty replacement). -/
def replace_word (d : PiDict) (v : Str) (w : Str) : Option Str :=
  match lookupVariation d v (lowerStr w) with
  | none => some w
  | some r =>
    if pyIsUpper w then some (upperStr r)
    else
      match w with
      | [] => none
      | c :: _ =>
        if isUpperChar c then
          match r with
          | [] => none
          | rc :: rs => some (pyToUpper rc :: rs)
        else some r

def update_words_for_piss_variation (d : PiDict) (v : Str) (t : Str) : Option Str :=
  (mapOpt (fun tok =>
    if pyStrip tok ≠ [] then replace_word d v tok else some tok) (tokenize t)).map List.flatten

/-! ### `transform_words_with_s_suffix` -/

/-- The inner `transform_word`: a word ending in exactly one `s` whose stem
has a dictionary entry with a non-`None` value for the variation is rewritten
to the (first-character-case-preserved) phonetic stem plus `s`.  `none`
models `IndexError` (`word[-1]` on an empty token, `base_word[0]` when the
empty string is a dictionary key). -/
def transform_word (d : PiDict) (v : Str) (w : Str) : Option Str :=
  match w.reverse with
  | [] => none
  | lastC :: restRev =>
    if lastC = 's' ∧ (w.length < 2 ∨ restRev.head? ≠ some 's') then
      match getEntry d (lowerStr w.dropLast) with
      | none => some w
      | some e =>
        match alookup e.PI v with
        | none => some w
        | some none => some w
        | some (some r) =>
          match w.dropLast with
          | [] => none
          | bc :: _ =>
            some ((if isUpperChar bc then pyCapitalize r else r) ++ ['s'])
    else some w

def transform_words_with_s_suffix (d : PiDict) (v : Str) (t : Str) : Option Str :=
  (mapOpt (fun tok =>
    if pyStrip tok ≠ [] then transform_word d v tok else some tok) (tokenize t)).map List.flatten

/-! ### `perform_preliminar_replacements`

Each key is substituted via `re.sub(r'\b<key>\b', callback, text,
flags=re.IGNORECASE)`.  Every key consists solely of word characters, so a
match of the pattern is exactly a maximal word-character run equal to the key
under IGNORECASE; the substitution is therefore the per-token map below.
IGNORECASE accepts Unicode case-equivalents (ſ matches s, ı and İ match i),
and a matched word such as `thiſ` lowercases to itself, missing the table in
the callback — the reachable `KeyError` of the preliminary stage. -/

def preliminar_replacements : List (Str × Str) :=
  [ (toStr "the", toStr "the\u032C"),
    (toStr "a", toStr "a\u032C"),
    (toStr "an", toStr "a\u032Cn"),
    (toStr "of", toStr "\u2039o\u032Cv\u203A"),
    (toStr "to", toStr "to\u032C"),
    (toStr "you", toStr "yo\u0308u"),
    (toStr "this", toStr "this\u0323"),
    (toStr "and", toStr "and"),
    (toStr "for", toStr "for"),
    (toStr "from", toStr "fro\u032Cm") ]

/-- `replacement_callback` of `perform_preliminar_replacements`.  `none`
models the `KeyError` of `self.preliminar_replacements[word.lower()]`. -/
def preliminarCb (m : Str) : Option Str :=
  match alookup preliminar_replacements (lowerStr m) with
  | none => none
  | some r =>
    some (if pyIsTitle m then pyCapitalize r
          else if pyIsUpper m then upperStr r
          else r)

/-- `re.sub(r'\b<key>\b', cb, s, flags=re.IGNORECASE)` for a key made of word
characters: replace every maximal word run that matches the key under
IGNORECASE — which, beyond ASCII case folding, also accepts the Unicode
case-equivalents ſ for s and ı/İ for i (`sreEquiv`). -/
def wordSubst (key : Str) (cb : Str → Option Str) (s : Str) : Option Str :=
  (mapOpt (fun t =>
    if isWordTok t = true ∧ ignoreCaseEq t key = true then cb t else some t) (tokenize s)).map List.flatten

def perform_preliminar_replacements (t : Str) : Option Str :=
  foldOpt (fun txt p => wordSubst p.1 preliminarCb txt) t preliminar_replacements

/-! ### `transcribe` -/

def transcribe (d : PiDict) (t : Str) (v : Str) : Option Str := do
  let a ← perform_preliminar_replacements t
  let b ← update_words_for_piss_variation d v a
  transform_words_with_s_suffix d v b

/-! ### Interactive review helpers -/

/-- `re.findall(r'\b\w+\b', sentence)`: the word-class tokens, in order. -/
def split_sentence_into_words (s : Str) : List Str :=
  (tokenize s).filter isWordTok

/-- The case-preserving callback of `replace_word_in_sentence`. -/
def replace_case (m : Str) (r : Str) : Str :=
  if pyIsUpper m then upperStr r
  else if pyIsTitle m then pyCapitalize r
  else r

/-- `replace_word_in_sentence`: `re.sub(rf'\b{re.escape(word)}\b', cb,
sentence, flags=re.IGNORECASE)`.  The replacement may be Python `None` (the
dictionary value for the variation); the callback then raises on the first
match, modelled by `none`. -/
def replace_word_in_sentence (word : Str) (repl : Option Str) (s : Str) : Option Str :=
  wordSubst word (fun m => repl.map (replace_case m)) s

/-- `replace_word_in_all_sentences` (an index loop assigning each slot). -/
def replace_word_in_all_sentences (word : Str) (repl : Option Str)
    (ss : List Str) : Option (List Str) :=
  mapOpt (replace_word_in_sentence word repl) ss

/-! ### Interactive review state machine

`process_sentence_interactively` is driven by blocking console input; it is
modelled as a function of the finite script of user commands.  A `custom`
command carries the free-form text the user would type at the inner prompt.
The result distinguishes a normal return, a raised exception (`error`), the
infinite loop the source enters on a word-less sentence (`diverge`), and
running out of scripted input while the loop is still alive (`await`). -/

inductive Action
  | acc | next | prev | edit | custom (raw : Str) | skip | quit | invalid
deriving DecidableEq

structure EngineState where
  sentences : List Str
  sentIdx : Nat
  sentence : Str
  words : List Str
  wordIdx : Nat
deriving DecidableEq

inductive RunResult
  | finished (sentences : List Str)
  | error
  | diverge
  | await (st : EngineState)
deriving DecidableEq

/-- Falling back to the inner `while` condition: if the word index is still in
range the loop continues; otherwise the line
`sentences[current_sentence_index] = sentence` runs — an `IndexError` when the
sentence index is out of range — and the outer loop re-enters the same
sentence at word index 0 (an infinite loop if it has no words). -/
def normalize (st : EngineState) : RunResult ⊕ EngineState :=
  if st.wordIdx < st.words.length then .inr st
  else if st.sentIdx < st.sentences.length then
    let ss := st.sentences.set st.sentIdx st.sentence
    match ss.get? st.sentIdx with
    | none => .inl .error
    | some sent =>
      let ws := split_sentence_into_words sent
      if ws.isEmpty then .inl .diverge
      else .inr ⟨ss, st.sentIdx, sent, ws, 0⟩
  else .inl .error

/-- One user command, dispatched exactly as the `if`/`elif` chain of
`process_sentence_interactively` does, ending at the inner `while` re-check. -/
def step (d : PiDict) (v : Str) (st : EngineState) (a : Action) : RunResult ⊕ EngineState :=
  match st.words.get? st.wordIdx with
  | none => .inl .error
  | some selected =>
    match a with
    | .acc =>
      match getEntry d (lowerStr selected) with
      | none => .inr st
      | some e =>
        match alookup e.PI v with
        | none => .inl .error
        | some piWord =>
          match replace_word_in_all_sentences selected piWord st.sentences with
          | none => .inl .error
          | some ss =>
            match ss.get? st.sentIdx with
            | none => .inl .error
            | some sent =>
              let ws := split_sentence_into_words sent
              let j := st.wordIdx + 1
              if j ≥ ws.length then
                let i := st.sentIdx + 1
                match ss.get? i with
                | some sent2 =>
                  normalize ⟨ss, i, sent2, split_sentence_into_words sent2, 0⟩
                | none => normalize ⟨ss, i, sent, ws, j⟩
              else normalize ⟨ss, st.sentIdx, sent, ws, j⟩
    | .next =>
      let j := st.wordIdx + 1
      if j ≥ st.words.length then
        let i := st.sentIdx + 1
        match st.sentences.get? i with
        | some sent2 =>
          normalize ⟨st.sentences, i, sent2, split_sentence_into_words sent2, 0⟩
        | none => normalize ⟨st.sentences, i, st.sentence, st.words, j⟩
      else .inr { st with wordIdx := j }
    | .prev =>
      if st.wordIdx > 0 then .inr { st with wordIdx := st.wordIdx - 1 }
      else if st.sentIdx > 0 then
        match st.sentences.get? (st.sentIdx - 1) with
        | none => .inl .error
        | some sent =>
          let ws := split_sentence_into_words sent
          match ws with
          | [] => .inl .error
          | _ :: _ =>
            .inr ⟨st.sentences, st.sentIdx - 1, sent, ws, ws.length - 1⟩
      else .inr st
    | .edit => .inr st
    | .custom raw =>
      match getEntry d (lowerStr selected) with
      | none => .inr st
      | some e =>
        match alookup e.PI v with
        | none => .inl .error
        | some piWord =>
          let stripped := pyStrip raw
          let repl : Option Str := if stripped = [] then piWord else some stripped
          match replace_word_in_all_sentences selected repl st.sentences with
          | none => .inl .error
          | some ss =>
            match ss.get? st.sentIdx with
            | none => .inl .error
            | some sent =>
              normalize ⟨ss, st.sentIdx, sent, split_sentence_into_words sent,
                st.wordIdx + 1⟩
    | .skip =>
      let i := st.sentIdx + 1
      match st.sentences.get? i with
      | some sent2 =>
        normalize ⟨st.sentences, i, sent2, split_sentence_into_words sent2, 0⟩
      | none => .inr { st with sentIdx := i }
    | .quit => .inl (.finished st.sentences)
    | .invalid => .inr st

/-- The dictionary display at the top of each iteration: when an entry exists,
`pi_entry['PI'][variation]` is evaluated, a `KeyError` if the variation key is
absent from the entry. -/
def displayErr (d : PiDict) (v : Str) (st : EngineState) : Bool :=
  match st.words.get? st.wordIdx with
  | none => false
  | some selected =>
    match getEntry d (lowerStr selected) with
    | none => false
    | some e => (alookup e.PI v).isNone

def run (d : PiDict) (v : Str) (st : EngineState) : List Action → RunResult
  | [] => if displayErr d v st then .error else .await st
  | a :: rest =>
    if displayErr d v st then .error
    else
      match step d v st a with
      | .inl r => r
      | .inr st2 => run d v st2 rest

/-- `process_sentence_interactively(sentences, current_sentence_index,
variation)` under a finite script of user commands. -/
def process_sentence_interactively (d : PiDict) (v : Str) (sentences : List Str)
    (startIdx : Nat) (acts : List Action) : RunResult :=
  if h : startIdx < sentences.length then
    let sent := sentences.get ⟨startIdx, h⟩
    let ws := split_sentence_into_words sent
    if ws.isEmpty then .diverge
    else run d v ⟨sentences, startIdx, sent, ws, 0⟩ acts
  else .finished sentences

/-- The suffix rule fires on a word: it ends in exactly one `s` and its stem
has a dictionary entry with a non-`None` value for the variation.  Used to
state when `transform_word` rewrites. -/
def sSuffixHit (d : PiDict) (v : Str) (w : Str) : Bool :=
  match w.reverse with
  | [] => false
  | lastC :: restRev =>
    if lastC = 's' ∧ (w.length < 2 ∨ restRev.head? ≠ some 's') then
      match getEntry d (lowerStr w.dropLast) with
      | none => false
      | some e =>
        match alookup e.PI v with
        | some (some _) => true
        | _ => false
    else false

/-- Totalised per-token action of `update_words_for_piss_variation`, used to
state the lossless-reconstruction property. -/
def updateTok (d : PiDict) (v : Str) (t : Str) : Str :=
  (if pyStrip t ≠ [] then replace_word d v t else some t).getD t

/-! ### Supporting lemmas -/

theorem mapOpt_eq_some_map {α β : Type} (f : α → Option β) (g : α → β) :
    ∀ {l : List α}, (∀ a ∈ l, f a = some (g a)) → mapOpt f l = some (l.map g)
  | [], _ => rfl
  | a :: l, h => by
    have ha := h a (List.mem_cons_self a l)
    have ht := mapOpt_eq_some_map f g fun b hb => h b (List.mem_cons_of_mem a hb)
    simp [mapOpt, ha, ht]

theorem mapOpt_eq_some_self (f : Str → Option Str) {l : List Str}
    (h : ∀ a ∈ l, f a = some a) : mapOpt f l = some l := by
  have := mapOpt_eq_some_map f id (by simpa using h)
  simpa using this

theorem mapOpt_isSome {α β : Type} (f : α → Option β) :
    ∀ {l : List α}, (∀ a ∈ l, (f a).isSome) → (mapOpt f l).isSome
  | [], _ => rfl
  | a :: l, h => by
    have ha := h a (List.mem_cons_self a l)
    have ht := mapOpt_isSome f fun b hb => h b (List.mem_cons_of_mem a hb)
    rcases Option.isSome_iff_exists.mp ha with ⟨b, hb⟩
    rcases Option.isSome_iff_exists.mp ht with ⟨bs, hbs⟩
    simp [mapOpt, hb, hbs]

theorem foldOpt_eq_some_self {α : Type} (f : Str → α → Option Str) (s : Str) :
    ∀ {l : List α}, (∀ a ∈ l, f s a = some s) → foldOpt f s l = some s
  | [], _ => rfl
  | a :: l, h => by
    have ha := h a (List.mem_cons_self a l)
    have ht := foldOpt_eq_some_self f s fun b hb => h b (List.mem_cons_of_mem a hb)
    simp [foldOpt, ha, ht]

theorem foldOpt_isSome {α : Type} (f : Str → α → Option Str) :
    ∀ {l : List α} (s : Str), (∀ s2 a, a ∈ l → (f s2 a).isSome) →
      (foldOpt f s l).isSome
  | [], _, _ => rfl
  | a :: l, s, h => by
    have ha := h s a (List.mem_cons_self a l)
    rcases Option.isSome_iff_exists.mp ha with ⟨s2, hs2⟩
    have ht := foldOpt_isSome f s2 fun s3 b hb => h s3 b (List.mem_cons_of_mem a hb)
    simpa [foldOpt, hs2] using ht

/-- `foldOpt` succeeds when every step succeeds on, and preserves, an
invariant of the accumulated string. -/
theorem foldOpt_isSome_inv {α : Type} (P : Str → Prop) (f : Str → α → Option Str) :
    ∀ {l : List α} {s : Str}, P s →
      (∀ s2 a, a ∈ l → P s2 → (f s2 a).isSome) →
      (∀ s2 s3 a, a ∈ l → P s2 → f s2 a = some s3 → P s3) →
      (foldOpt f s l).isSome
  | [], _, _, _, _ => rfl
  | a :: l, s, hP, htot, hpres => by
    rcases Option.isSome_iff_exists.mp
      (htot s a (List.mem_cons_self a l) hP) with ⟨s3, hs3⟩
    have ht := foldOpt_isSome_inv P f
      (hpres s s3 a (List.mem_cons_self a l) hP hs3)
      (fun s2 b hb => htot s2 b (List.mem_cons_of_mem a hb))
      (fun s2 s4 b hb => hpres s2 s4 b (List.mem_cons_of_mem a hb))
    simpa [foldOpt, hs3] using ht

theorem mapOpt_eq_some_mem {α β : Type} (f : α → Option β) :
    ∀ {l : List α} {outs : List β}, mapOpt f l = some outs →
      ∀ b ∈ outs, ∃ a ∈ l, f a = some b
  | [], outs, h => by
    rw [mapOpt] at h
    have h2 : outs = [] := by simpa using h.symm
    subst h2
    intro b hb
    simp at hb
  | a :: l, outs, h => by
    rw [mapOpt] at h
    rcases hf : f a with _ | b0
    · simp only [hf] at h
      exact Option.noConfusion h
    · simp only [hf] at h
      rcases hm : mapOpt f l with _ | outs0
      · rw [hm] at h
        simp at h
      · rw [hm] at h
        have h2 : outs = b0 :: outs0 := by simpa using h.symm
        subst h2
        intro b hb
        rcases List.mem_cons.mp hb with hb1 | hb1
        · exact ⟨a, List.mem_cons_self a l, hb1 ▸ hf⟩
        · rcases mapOpt_eq_some_mem f hm b hb1 with ⟨a2, ha2, hfa2⟩
          exact ⟨a2, List.mem_cons_of_mem a ha2, hfa2⟩

theorem alookup_eq_some {α : Type} {k : Str} {v : α} :
    ∀ {l : List (Str × α)}, alookup l k = some v → ∃ p, p ∈ l ∧ p.1 = k ∧ p.2 = v
  | [], h => by simp [alookup] at h
  | p :: ps, h => by
    by_cases hp : p.1 = k
    · refine ⟨p, List.mem_cons_self p ps, hp, ?_⟩
      simpa [alookup, hp] using h
    · have := alookup_eq_some (l := ps) (by simpa [alookup, hp] using h)
      rcases this with ⟨q, hq, h1, h2⟩
      exact ⟨q, List.mem_cons_of_mem p hq, h1, h2⟩

theorem alookup_isSome_of_mem {α : Type} {p : Str × α} :
    ∀ {l : List (Str × α)}, p ∈ l → (alookup l p.1).isSome
  | [], h => by simp at h
  | q :: ps, h => by
    by_cases hq : q.1 = p.1
    · simp [alookup, hq]
    · rcases List.mem_cons.mp h with h1 | h1
      · exact absurd (h1 ▸ rfl) hq
      · simpa [alookup, hq] using alookup_isSome_of_mem h1

theorem tokenize_flatten : ∀ s : Str, (tokenize s).flatten = s := by
  intro s
  induction s with
  | nil => rfl
  | cons c cs ih =>
    rw [tokenize]
    rcases h : tokenize cs with _ | ⟨t0, ts⟩
    · rw [h] at ih
      simp at ih
      simp [ih]
    · rcases t0 with _ | ⟨d, t⟩
      · rw [h] at ih
        simpa using ih
      · rw [h] at ih
        by_cases hc : charClass c = charClass d
        · simpa [hc] using ih
        · simpa [hc] using ih

theorem mem_tokenize_ne_nil : ∀ {s t : Str}, t ∈ tokenize s → t ≠ [] := by
  intro s
  induction s with
  | nil => intro t h; simp [tokenize] at h
  | cons c cs ih =>
    intro t h
    rw [tokenize] at h
    rcases h2 : tokenize cs with _ | ⟨t0, ts⟩
    · rw [h2] at h; simp at h; simp [h]
    · rw [h2] at h
      rcases t0 with _ | ⟨d, t1⟩
      · rcases List.mem_cons.mp h with h3 | h3
        · simp [h3]
        · exact ih (h2 ▸ h3)
      · replace h : t ∈ (if charClass c = charClass d then (c :: d :: t1) :: ts
            else [c] :: (d :: t1) :: ts) := h
        by_cases hc : charClass c = charClass d
        · rw [if_pos hc] at h
          rcases List.mem_cons.mp h with h3 | h3
          · simp [h3]
          · exact ih (h2 ▸ List.mem_cons_of_mem (d :: t1) h3)
        · rw [if_neg hc] at h
          rcases List.mem_cons.mp h with h3 | h3
          · simp [h3]
          · exact ih (h2 ▸ h3)

theorem mem_tokenize_homog : ∀ {s t : Str}, t ∈ tokenize s →
    ∀ a ∈ t, ∀ b ∈ t, charClass a = charClass b := by
  intro s
  induction s with
  | nil => intro t h; simp [tokenize] at h
  | cons c cs ih =>
    intro t h
    rw [tokenize] at h
    rcases h2 : tokenize cs with _ | ⟨t0, ts⟩
    · rw [h2] at h
      simp at h
      intro a ha b hb
      rw [h] at ha hb
      simp at ha hb
      rw [ha, hb]
    · rw [h2] at h
      rcases t0 with _ | ⟨d, t1⟩
      · rcases List.mem_cons.mp h with h3 | h3
        · intro a ha b hb
          rw [h3] at ha hb
          simp at ha hb
          rw [ha, hb]
        · exact ih (h2 ▸ h3)
      · replace h : t ∈ (if charClass c = charClass d then (c :: d :: t1) :: ts
            else [c] :: (d :: t1) :: ts) := h
        by_cases hc : charClass c = charClass d
        · rw [if_pos hc] at h
          rcases List.mem_cons.mp h with h3 | h3
          · subst h3
            have hdt : ∀ a ∈ d :: t1, charClass a = charClass d := by
              intro a ha
              exact ih (h2 ▸ List.mem_cons_self (d :: t1) ts) a ha d
                (List.mem_cons_self d t1)
            intro a ha b hb
            rcases List.mem_cons.mp ha with ha1 | ha1 <;>
              rcases List.mem_cons.mp hb with hb1 | hb1
            · rw [ha1, hb1]
            · rw [ha1, hc, (hdt b hb1)]
            · rw [hb1, hc, (hdt a ha1)]
            · rw [hdt a ha1, hdt b hb1]
          · exact ih (h2 ▸ List.mem_cons_of_mem (d :: t1) h3)
        · rw [if_neg hc] at h
          rcases List.mem_cons.mp h with h3 | h3
          · intro a ha b hb
            rw [h3] at ha hb
            simp at ha hb
            rw [ha, hb]
          · exact ih (h2 ▸ h3)

/-- A non-empty string all of whose characters share the head's class is a
single token. -/
theorem tokenize_homog_eq : ∀ (c : Char) (cs : Str),
    (∀ d ∈ cs, charClass d = charClass c) → tokenize (c :: cs) = [c :: cs] := by
  intro c cs
  induction cs generalizing c with
  | nil => intro _; rfl
  | cons d cs2 ih =>
    intro h
    have hd : charClass d = charClass c := h d (List.mem_cons_self d cs2)
    have h2 : ∀ e ∈ cs2, charClass e = charClass d := by
      intro e he
      rw [h e (List.mem_cons_of_mem d he), hd]
    rw [tokenize, ih d h2]
    simp [hd.symm]

theorem isWordChar_of_isUpper {c : Char} (h : c.isUpper = true) : isWordChar c = true := by
  simp [isWordChar, Char.isAlphanum, Char.isAlpha, h]

theorem pyToLower_eq_self {c : Char} (h : isWordChar c = false) : pyToLower c = c := by
  rw [pyToLower]
  by_cases hu : c.isUpper = true
  · rw [isWordChar_of_isUpper hu] at h
    cases h
  · simp [hu]

theorem lowerStr_eq_self {t : Str} (h : ∀ c ∈ t, isWordChar c = false) :
    lowerStr t = t := by
  induction t with
  | nil => rfl
  | cons c cs ih =>
    have h1 := pyToLower_eq_self (h c (List.mem_cons_self c cs))
    have h2 := ih fun b hb => h b (List.mem_cons_of_mem c hb)
    rw [lowerStr] at h2 ⊢
    rw [List.map_cons, h1, h2]

theorem charClass_eq_zero_iff {c : Char} : charClass c = 0 ↔ isWordChar c = true := by
  rw [charClass]
  by_cases h : isWordChar c = true
  · simp [h]
  · have h2 : isWordChar c = false := by simpa using h
    simp only [h2]
    constructor
    · intro h3
      by_cases hs : isSpaceChar c = true <;> simp [hs] at h3
    · intro h3
      exact Bool.noConfusion h3

theorem pyStrip_eq_nil_of_space {t : Str} (h : ∀ c ∈ t, isSpaceChar c = true) :
    pyStrip t = [] := by
  rw [pyStrip]
  have h1 : t.dropWhile isSpaceChar = [] := List.dropWhile_eq_nil_iff.mpr h
  simp [h1]

theorem pyStrip_ne_nil {t : Str} {c : Char} (hc : c ∈ t) (h : isSpaceChar c = false) :
    pyStrip t ≠ [] := by
  intro he
  rw [pyStrip] at he
  have he2 : (t.dropWhile isSpaceChar).reverse.dropWhile isSpaceChar = [] := by
    simpa using he
  have h2 := List.dropWhile_eq_nil_iff.mp he2
  have h3 : c ∈ t.takeWhile isSpaceChar ++ t.dropWhile isSpaceChar := by
    rw [List.takeWhile_append_dropWhile]
    exact hc
  rcases List.mem_append.mp h3 with h4 | h4
  · have := List.mem_takeWhile_imp h4
    rw [h] at this
    cases this
  · have := h2 c (by simpa using h4)
    rw [h] at this
    cases this

theorem sreEquiv_of_pyToLower_eq {a b : Char} (h : pyToLower a = pyToLower b) :
    sreEquiv a b = true := by
  simp [sreEquiv, h]

theorem ignoreCaseEq_of_lowerStr_eq : ∀ {t k : Str}, lowerStr t = lowerStr k →
    ignoreCaseEq t k = true
  | [], [], _ => rfl
  | [], _ :: _, h => by simp [lowerStr] at h
  | _ :: _, [], h => by simp [lowerStr] at h
  | a :: as, b :: bs, h => by
    simp only [lowerStr, List.map_cons, List.cons.injEq] at h
    rw [ignoreCaseEq, sreEquiv_of_pyToLower_eq h.1,
      ignoreCaseEq_of_lowerStr_eq (t := as) (k := bs) h.2]
    rfl

/-- Without the exotic case-equivalents ſ, ı, İ on either side, an
IGNORECASE character match is just equality of lowercase forms. -/
theorem sreEquiv_plain {a b : Char} (h : sreEquiv a b = true)
    (ha : sreExotic a = false) (hb : sreExotic b = false) :
    pyToLower a = pyToLower b := by
  rw [sreEquiv] at h
  rw [sreExotic] at ha hb
  simp only [Bool.or_eq_false_iff, decide_eq_false_iff_not] at ha hb
  simp only [Bool.or_eq_true, Bool.and_eq_true, decide_eq_true_eq] at h
  obtain ⟨⟨ha1, ha2⟩, ha3⟩ := ha
  obtain ⟨⟨hb1, hb2⟩, hb3⟩ := hb
  rcases h with (h | ⟨h1, h2⟩) | ⟨h1, h2⟩
  · exact h
  · rcases h1 with (h1 | h1) | h1
    · rcases h2 with (h2 | h2) | h2
      · rw [h1, h2]
      · exact absurd h2 hb2
      · exact absurd h2 hb3
    · exact absurd h1 ha2
    · exact absurd h1 ha3
  · rcases h1 with h1 | h1
    · rcases h2 with h2 | h2
      · rw [h1, h2]
      · exact absurd h2 hb1
    · exact absurd h1 ha1

theorem ignoreCaseEq_lowerStr_eq : ∀ {t k : Str}, ignoreCaseEq t k = true →
    (∀ c ∈ t, sreExotic c = false) → (∀ c ∈ k, sreExotic c = false) →
    lowerStr t = lowerStr k
  | [], [], _, _, _ => rfl
  | [], _ :: _, h, _, _ => Bool.noConfusion h
  | _ :: _, [], h, _, _ => Bool.noConfusion h
  | a :: as, b :: bs, h, ht, hk => by
    rw [ignoreCaseEq, Bool.and_eq_true] at h
    have h1 := sreEquiv_plain h.1 (ht a (List.mem_cons_self a as))
      (hk b (List.mem_cons_self b bs))
    have h2 := ignoreCaseEq_lowerStr_eq (t := as) (k := bs) h.2
      (fun c hc => ht c (List.mem_cons_of_mem a hc))
      (fun c hc => hk c (List.mem_cons_of_mem b hc))
    simp only [lowerStr, List.map_cons]
    simp only [lowerStr] at h2
    rw [h1, h2]

/-! ### Inertness: inputs no token of which triggers a stage pass through -/

theorem wordSubst_inert {key s : Str} (cb : Str → Option Str)
    (h : ∀ t ∈ tokenize s, isWordTok t = true → ignoreCaseEq t key = false) :
    wordSubst key cb s = some s := by
  rw [wordSubst]
  have h2 : mapOpt (fun t =>
      if isWordTok t = true ∧ ignoreCaseEq t key = true then cb t else some t)
      (tokenize s) = some (tokenize s) := by
    apply mapOpt_eq_some_self
    intro t ht
    have h3 : ¬(isWordTok t = true ∧ ignoreCaseEq t key = true) := by
      rintro ⟨h4, h5⟩
      rw [h t ht h4] at h5
      exact Bool.noConfusion h5
    rw [if_neg h3]
  rw [h2]
  simp [tokenize_flatten]

/-- Concrete facts about the fixed preliminary table: keys are lowercase and
free of the exotic case-equivalents, and the values (in each of the three
case adaptations the callback can produce) are free of them too. -/
theorem preliminar_table_facts : ∀ p ∈ preliminar_replacements,
    lowerStr p.1 = p.1 ∧ (∀ c ∈ p.1, sreExotic c = false) ∧
    (∀ c ∈ p.2, sreExotic c = false) ∧
    (∀ c ∈ pyCapitalize p.2, sreExotic c = false) ∧
    (∀ c ∈ upperStr p.2, sreExotic c = false) := by
  decide

theorem preliminar_inert {s : Str}
    (h : ∀ t ∈ tokenize s, isWordTok t = true →
      ∀ p ∈ preliminar_replacements, ignoreCaseEq t p.1 = false) :
    perform_preliminar_replacements s = some s := by
  rw [perform_preliminar_replacements]
  apply foldOpt_eq_some_self
  intro p hp
  apply wordSubst_inert
  intro t ht hw
  exact h t ht hw p hp

theorem update_inert {d : PiDict} {v s : Str}
    (h : ∀ t ∈ tokenize s, pyStrip t ≠ [] → lookupVariation d v (lowerStr t) = none) :
    update_words_for_piss_variation d v s = some s := by
  rw [update_words_for_piss_variation]
  have h2 : mapOpt (fun tok =>
      if pyStrip tok ≠ [] then replace_word d v tok else some tok)
      (tokenize s) = some (tokenize s) := by
    apply mapOpt_eq_some_self
    intro t ht
    by_cases hs : pyStrip t = []
    · simp [hs]
    · rw [if_pos hs, replace_word, h t ht hs]
  rw [h2]
  simp [tokenize_flatten]

theorem transform_word_inert {d : PiDict} {v w : Str} (hne : w ≠ [])
    (h : sSuffixHit d v w = false) : transform_word d v w = some w := by
  rw [transform_word]
  rw [sSuffixHit] at h
  rcases hr : w.reverse with _ | ⟨lastC, restRev⟩
  · exact absurd (by simpa using congrArg List.reverse hr) hne
  · simp only [hr] at h ⊢
    by_cases hg : lastC = 's' ∧ (w.length < 2 ∨ restRev.head? ≠ some 's')
    · rw [if_pos hg] at h ⊢
      rcases hge : getEntry d (lowerStr w.dropLast) with _ | e
      · simp only [hge]
      · simp only [hge] at h ⊢
        rcases ha : alookup e.PI v with _ | r2
        · simp only [ha]
        · rcases r2 with _ | r
          · simp only [ha]
          · simp only [ha] at h
            exact Bool.noConfusion h
    · rw [if_neg hg]

theorem transform_inert {d : PiDict} {v s : Str}
    (h : ∀ t ∈ tokenize s, sSuffixHit d v t = false) :
    transform_words_with_s_suffix d v s = some s := by
  rw [transform_words_with_s_suffix]
  have h2 : mapOpt (fun tok =>
      if pyStrip tok ≠ [] then transform_word d v tok else some tok)
      (tokenize s) = some (tokenize s) := by
    apply mapOpt_eq_some_self
    intro t ht
    by_cases hs : pyStrip t = []
    · simp [hs]
    · rw [if_pos hs, transform_word_inert (mem_tokenize_ne_nil ht) (h t ht)]
  rw [h2]
  simp [tokenize_flatten]

/-! ### Totality of the batch pipeline -/

theorem lookupVariation_ne_nil {d : PiDict} {v k r : Str}
    (h : lookupVariation d v k = some r) : r ≠ [] := by
  rw [lookupVariation] at h
  rcases hge : getEntry d k with _ | e
  · simp only [hge] at h
    exact Option.noConfusion h
  · simp only [hge] at h
    rcases ha : alookup e.PI v with _ | r2
    · simp only [ha] at h
      exact Option.noConfusion h
    · rcases r2 with _ | r3
      · simp only [ha] at h
        exact Option.noConfusion h
      · simp only [ha] at h
        by_cases h2 : r3 = []
        · rw [if_pos h2] at h
          exact Option.noConfusion h
        · rw [if_neg h2] at h
          exact (Option.some.inj h) ▸ h2

theorem replace_word_isSome {d : PiDict} {v w : Str} (hne : w ≠ []) :
    (replace_word d v w).isSome := by
  rw [replace_word]
  rcases hl : lookupVariation d v (lowerStr w) with _ | r
  · rfl
  · by_cases hu : pyIsUpper w = true
    · simp [hu]
    · rcases w with _ | ⟨c, cs⟩
      · exact absurd rfl hne
      · have hb : pyIsUpper (c :: cs) = false := by simpa using hu
        rcases hr : r with _ | ⟨rc, rs⟩
        · exact absurd (hr ▸ rfl) (lookupVariation_ne_nil hl)
        · simp [hb]
          by_cases hc : isUpperChar c = true <;> simp [hc]

theorem update_isSome (d : PiDict) (v t : Str) :
    (update_words_for_piss_variation d v t).isSome := by
  rw [update_words_for_piss_variation]
  have h2 : (mapOpt (fun tok =>
      if pyStrip tok ≠ [] then replace_word d v tok else some tok)
      (tokenize t)).isSome := by
    apply mapOpt_isSome
    intro a ha
    by_cases hs : pyStrip a = []
    · simp [hs]
    · rw [if_pos hs]
      exact replace_word_isSome (mem_tokenize_ne_nil ha)
  rcases Option.isSome_iff_exists.mp h2 with ⟨l, hl⟩
  rw [hl]
  rfl

theorem transform_word_isSome {d : PiDict} {v w : Str} (hne : w ≠ [])
    (hkeys : ∀ p ∈ d, p.1 ≠ []) : (transform_word d v w).isSome := by
  rw [transform_word]
  rcases hr : w.reverse with _ | ⟨lastC, restRev⟩
  · exact absurd (by simpa using congrArg List.reverse hr) hne
  · simp only [hr]
    by_cases hg : lastC = 's' ∧ (w.length < 2 ∨ restRev.head? ≠ some 's')
    · rw [if_pos hg]
      rcases hge : getEntry d (lowerStr w.dropLast) with _ | e
      · simp only [hge]
        rfl
      · simp only [hge]
        rcases ha : alookup e.PI v with _ | r2
        · simp only [ha]
          rfl
        · rcases r2 with _ | r
          · simp only [ha]
            rfl
          · simp only [ha]
            rcases hdl : w.dropLast with _ | ⟨bc, bcs⟩
            · rcases alookup_eq_some hge with ⟨p, hp, h1, _⟩
              have h3 : lowerStr w.dropLast = [] := by rw [hdl]; rfl
              rw [h3] at h1
              exact absurd h1 (hkeys p hp)
            · simp only [hdl]
              rfl
    · rw [if_neg hg]
      rfl

theorem transform_isSome (d : PiDict) (v t : Str) (hkeys : ∀ p ∈ d, p.1 ≠ []) :
    (transform_words_with_s_suffix d v t).isSome := by
  rw [transform_words_with_s_suffix]
  have h2 : (mapOpt (fun tok =>
      if pyStrip tok ≠ [] then transform_word d v tok else some tok)
      (tokenize t)).isSome := by
    apply mapOpt_isSome
    intro a ha
    by_cases hs : pyStrip a = []
    · simp [hs]
    · rw [if_pos hs]
      exact transform_word_isSome (mem_tokenize_ne_nil ha) hkeys
  rcases Option.isSome_iff_exists.mp h2 with ⟨l, hl⟩
  rw [hl]
  rfl

theorem wordSubst_isSome {key s : Str} {cb : Str → Option Str}
    (h : ∀ t ∈ tokenize s, isWordTok t = true → ignoreCaseEq t key = true →
      (cb t).isSome) : (wordSubst key cb s).isSome := by
  rw [wordSubst]
  have h2 : (mapOpt (fun t =>
      if isWordTok t = true ∧ ignoreCaseEq t key = true then cb t else some t)
      (tokenize s)).isSome := by
    apply mapOpt_isSome
    intro a ha
    by_cases hc : isWordTok a = true ∧ ignoreCaseEq a key = true
    · rw [if_pos hc]
      exact h a ha hc.1 hc.2
    · rw [if_neg hc]
      rfl
  rcases Option.isSome_iff_exists.mp h2 with ⟨l, hl⟩
  rw [hl]
  rfl

/-- One preliminary pass keeps the text free of the exotic case-equivalents:
unmatched tokens come from the input and the callback only emits case
adaptations of the fixed table values. -/
theorem wordSubst_preliminarCb_plain {key s s2 : Str}
    (hs : ∀ c ∈ s, sreExotic c = false)
    (h : wordSubst key preliminarCb s = some s2) :
    ∀ c ∈ s2, sreExotic c = false := by
  rw [wordSubst] at h
  rcases hm : mapOpt (fun t =>
      if isWordTok t = true ∧ ignoreCaseEq t key = true then preliminarCb t
      else some t) (tokenize s) with _ | outs
  · rw [hm] at h
    simp at h
  · rw [hm] at h
    have h2 : s2 = outs.flatten := by simpa using h.symm
    subst h2
    intro c hc
    rcases List.mem_flatten.mp hc with ⟨b, hb, hcb⟩
    rcases mapOpt_eq_some_mem _ hm b hb with ⟨tk, htk, hfb⟩
    by_cases hcond : isWordTok tk = true ∧ ignoreCaseEq tk key = true
    · rw [if_pos hcond, preliminarCb] at hfb
      rcases ha : alookup preliminar_replacements (lowerStr tk) with _ | r
      · rw [ha] at hfb
        exact Option.noConfusion hfb
      · rw [ha] at hfb
        simp only [Option.some.injEq] at hfb
        rcases alookup_eq_some ha with ⟨p, hp, _, hpr⟩
        have hfacts := preliminar_table_facts p hp
        subst hfb
        by_cases h1 : pyIsTitle tk = true
        · rw [if_pos h1] at hcb
          exact hfacts.2.2.2.1 c (hpr ▸ hcb)
        · rw [if_neg h1] at hcb
          by_cases h2 : pyIsUpper tk = true
          · rw [if_pos h2] at hcb
            exact hfacts.2.2.2.2 c (hpr ▸ hcb)
          · rw [if_neg h2] at hcb
            exact hfacts.2.2.1 c (hpr ▸ hcb)
    · rw [if_neg hcond] at hfb
      have hb2 : b = tk := by simpa using hfb.symm
      subst hb2
      apply hs
      rw [← tokenize_flatten s]
      exact List.mem_flatten.mpr ⟨b, htk, hcb⟩

/-- One preliminary pass succeeds on text free of the exotic
case-equivalents: every IGNORECASE match then lowercases to the key itself,
so the callback's table lookup cannot miss. -/
theorem wordSubst_preliminarCb_isSome {key s : Str}
    (hkey : ∀ c ∈ key, sreExotic c = false) (hkl : lowerStr key = key)
    (hmem : (alookup preliminar_replacements key).isSome)
    (hs : ∀ c ∈ s, sreExotic c = false) :
    (wordSubst key preliminarCb s).isSome := by
  apply wordSubst_isSome
  intro tk htk _ heq
  have htkplain : ∀ c ∈ tk, sreExotic c = false := by
    intro c hc
    apply hs
    rw [← tokenize_flatten s]
    exact List.mem_flatten.mpr ⟨tk, htk, hc⟩
  have hlow := ignoreCaseEq_lowerStr_eq heq htkplain hkey
  rw [preliminarCb, hlow, hkl]
  rcases Option.isSome_iff_exists.mp hmem with ⟨r, hr⟩
  simp [hr]

/-- `perform_preliminar_replacements` is total on every input without the
exotic case-equivalents ſ, ı, İ (and only its callback's table lookup can
raise at all). -/
theorem preliminar_isSome_of_plain {t : Str}
    (h : ∀ c ∈ t, sreExotic c = false) :
    (perform_preliminar_replacements t).isSome := by
  rw [perform_preliminar_replacements]
  apply foldOpt_isSome_inv (fun s => ∀ c ∈ s, sreExotic c = false)
  · exact h
  · intro s2 p hp hP
    have hf := preliminar_table_facts p hp
    exact wordSubst_preliminarCb_isSome hf.2.1 hf.1 (alookup_isSome_of_mem hp) hP
  · intro s2 s3 p _ hP hstep
    exact wordSubst_preliminarCb_plain hP hstep

theorem transcribe_isSome (d : PiDict) (t v : Str) (hkeys : ∀ p ∈ d, p.1 ≠ [])
    (hplain : ∀ c ∈ t, sreExotic c = false) :
    (transcribe d t v).isSome := by
  rw [transcribe]
  rcases Option.isSome_iff_exists.mp (preliminar_isSome_of_plain hplain) with ⟨a, ha⟩
  rcases Option.isSome_iff_exists.mp (update_isSome d v a) with ⟨b, hb⟩
  rcases Option.isSome_iff_exists.mp (transform_isSome d v b hkeys) with ⟨c, hc⟩
  simp [ha, hb, hc]

/-! ### Per-token characterisation of the variation substitution -/

theorem update_eq_updateTok (d : PiDict) (v s : Str) :
    update_words_for_piss_variation d v s =
      some (((tokenize s).map (updateTok d v)).flatten) := by
  rw [update_words_for_piss_variation]
  have h2 : mapOpt (fun tok =>
      if pyStrip tok ≠ [] then replace_word d v tok else some tok)
      (tokenize s) = some ((tokenize s).map (updateTok d v)) := by
    apply mapOpt_eq_some_map
    intro a ha
    by_cases hs : pyStrip a = []
    · simp [updateTok, hs]
    · rcases Option.isSome_iff_exists.mp
        (replace_word_isSome (d := d) (v := v) (mem_tokenize_ne_nil ha)) with ⟨y, hy⟩
      simp [updateTok, hs, hy]
  rw [h2]
  rfl

theorem updateTok_nonword {d : PiDict} {v : Str} {s t : Str}
    (hkeys : ∀ p ∈ d, p.1 ≠ [] ∧ ∀ c ∈ p.1, isWordChar c = true)
    (ht : t ∈ tokenize s) (hw : isWordTok t = false) : updateTok d v t = t := by
  rcases hc : t with _ | ⟨c, cs⟩
  · rfl
  · rw [← hc]
    have hcw : isWordChar c = false := by
      rw [hc] at hw
      simpa [isWordTok] using hw
    have hall : ∀ a ∈ t, isWordChar a = false := by
      intro a ha
      by_contra hcontra
      have ha2 : isWordChar a = true := by simpa using hcontra
      have h0 : charClass a = 0 := charClass_eq_zero_iff.mpr ha2
      have hcls := mem_tokenize_homog ht a ha c (hc ▸ List.mem_cons_self c cs)
      rw [h0] at hcls
      have := charClass_eq_zero_iff.mp hcls.symm
      rw [hcw] at this
      exact Bool.noConfusion this
    have hlow : lowerStr t = t := lowerStr_eq_self hall
    rw [updateTok]
    by_cases hs : pyStrip t = []
    · simp [hs]
    · rw [if_pos hs, replace_word, hlow]
      have hlv : lookupVariation d v t = none := by
        rw [lookupVariation]
        rcases hge : getEntry d t with _ | e
        · rfl
        · rcases alookup_eq_some hge with ⟨p, hp, h1, _⟩
          have h2 := (hkeys p hp).2
          rw [h1] at h2
          have := h2 c (hc ▸ List.mem_cons_self c cs)
          rw [hcw] at this
          exact Bool.noConfusion this
      simp [hlv]

theorem updateTok_miss {d : PiDict} {v t : Str}
    (h : lookupVariation d v (lowerStr t) = none) : updateTok d v t = t := by
  rw [updateTok]
  by_cases hs : pyStrip t = []
  · simp [hs]
  · rw [if_pos hs, replace_word]
    simp [h]

/-- `replace_word_in_all_sentences` with a non-`None` replacement processes
every sentence, replacing each whole-word case-insensitive occurrence with the
case-adapted replacement. -/
theorem replace_all_spec (w r : Str) (ss : List Str) :
    replace_word_in_all_sentences w (some r) ss =
      some (ss.map fun s => ((tokenize s).map fun t =>
        if isWordTok t = true ∧ ignoreCaseEq t w = true then replace_case t r
        else t).flatten) := by
  rw [replace_word_in_all_sentences]
  apply mapOpt_eq_some_map
  intro a _
  rw [replace_word_in_sentence, wordSubst]
  have h2 : mapOpt (fun t =>
      if isWordTok t = true ∧ ignoreCaseEq t w = true then
        (some r).map (replace_case t) else some t) (tokenize a) =
      some ((tokenize a).map fun t =>
        if isWordTok t = true ∧ ignoreCaseEq t w = true then replace_case t r
        else t) := by
    apply mapOpt_eq_some_map
    intro b _
    by_cases hc : isWordTok b = true ∧ ignoreCaseEq b w = true
    · rw [if_pos hc, if_pos hc]
      rfl
    · rw [if_neg hc, if_neg hc]
  rw [h2]
  rfl

/-! ### Claims -/

/-- C1: the claim states that when the review cursor advances past the last
word of the last sentence the engine returns normally.  The code instead
reaches `sentences[current_sentence_index] = sentence` with
`current_sentence_index == len(sentences)` and raises `IndexError`: with the
two sentences "a b" and "c d" and the script n, n, n, n, the fourth `n`
exhausts the review and the run ends in the error state, not a normal
return. -/
theorem C1_exhaustion_raises_index_error :
    process_sentence_interactively [] (toStr "L1") [toStr "a b", toStr "c d"] 0
      [.next, .next, .next, .next] = .error := by
  decide

/-- C2: the claim states that a word whose entry exists but lacks a non-null
value for the chosen variation never makes the loop throw.  The code throws
in both shapes of that situation: displaying an entry whose `PI` mapping
lacks the variation key raises `KeyError` at `pi_entry['PI'][variation]`
(first conjunct, before any input is read); and pressing `a` on an entry
whose value for the variation is `None` feeds `None` into
`replace_word_in_all_sentences`, whose `re.sub` callback then raises (second
conjunct). -/
theorem C2_missing_variation_value_raises :
    process_sentence_interactively [(toStr "cat", ⟨toStr "cat", []⟩)]
        (toStr "L1") [toStr "cat"] 0 [] = .error ∧
    process_sentence_interactively
        [(toStr "cat", ⟨toStr "cat", [(toStr "L1", none)]⟩)]
        (toStr "L1") [toStr "cat"] 0 [.acc] = .error :=
  ⟨by decide, by decide⟩

/-- C3 counterexample: with sentences "a b", "c d", an entry for `b`, and the
script n then c (customising `b` to `z`), the claim predicts the cursor lands
on sentence 1 word 0.  The code's `c` branch has no rollover: the inner loop
exits and the outer loop re-enters sentence 0 at word 0, so the engine awaits
at sentence index 0, not 1. -/
theorem C3_customize_no_rollover_cex :
    process_sentence_interactively
        [(toStr "b", ⟨toStr "b", [(toStr "L1", some (toStr "x"))]⟩)]
        (toStr "L1") [toStr "a b", toStr "c d"] 0
        [.next, .custom (toStr "z")] =
      .await ⟨[toStr "a z", toStr "c d"], 0, toStr "a z",
        [toStr "a", toStr "z"], 0⟩ ∧
    process_sentence_interactively
        [(toStr "b", ⟨toStr "b", [(toStr "L1", some (toStr "x"))]⟩)]
        (toStr "L1") [toStr "a b", toStr "c d"] 0
        [.next, .custom (toStr "z")] ≠
      .await ⟨[toStr "a z", toStr "c d"], 1, toStr "c d",
        [toStr "c", toStr "d"], 0⟩ :=
  ⟨by decide, by decide⟩

/-- C4 counterexample: `transcribe` is not idempotent even with an empty
dictionary.  `transcribe("the")` yields `the` followed by the combining caron;
the caron is not a word character, so `\bthe\b` matches again inside the
output and a second `transcribe` appends a second caron. -/
theorem C4_transcribe_not_idempotent_cex :
    (transcribe [] (toStr "the") (toStr "L1")).bind
        (fun y => transcribe [] y (toStr "L1")) ≠
      transcribe [] (toStr "the") (toStr "L1") := by
  decide

/-- C5 counterexample: the claim states that every substitution site turns a
first-uppercase (not all-uppercase) original into the replacement with exactly
its first character uppercased and the rest unchanged.  Two sites deviate:
`transform_words_with_s_suffix` uses Python `capitalize`, which also
lowercases the rest (`Cats` with stem entry `kAt` gives `Kats`, not `KAts`);
and `replace_word_in_sentence` only capitalizes title-case matches, so the
first-uppercase original `THe` keeps the replacement `abc` entirely
unchanged instead of producing `Abc`. -/
theorem C5_case_adaptation_cex :
    (transform_words_with_s_suffix
        [(toStr "cat", ⟨toStr "cat", [(toStr "L1", some (toStr "kAt"))]⟩)]
        (toStr "L1") (toStr "Cats") = some (toStr "Kats") ∧
      toStr "Kats" ≠ upperFirst (toStr "kAt") ++ [ 's' ]) ∧
    (replace_word_in_sentence (toStr "the") (some (toStr "abc"))
        (toStr "THe") = some (toStr "abc") ∧
      toStr "abc" ≠ upperFirst (toStr "abc")) :=
  ⟨⟨by decide, by decide⟩, ⟨by decide, by decide⟩⟩

/-- C6: with the dictionary entry `cat → {L1: kat}`, `transcribe("cats")`
yields `kats`; and a token ending in a double `s` is never rewritten by the
suffix step, whatever the dictionary: the `word[-2] != 's'` guard fails. -/
theorem C6_suffix_rule_and_double_s :
    transcribe [(toStr "cat", ⟨toStr "cat", [(toStr "L1", some (toStr "kat"))]⟩)]
        (toStr "cats") (toStr "L1") = some (toStr "kats") ∧
    ∀ (d : PiDict) (v w : Str),
      transform_word d v (w ++ [ 's', 's' ]) = some (w ++ [ 's', 's' ]) := by
  constructor
  · decide
  · intro d v w
    rw [transform_word]
    have hr : (w ++ [ 's', 's' ]).reverse = 's' :: 's' :: w.reverse := by simp
    simp only [hr]
    have hg : ¬(True ∧ ((w ++ [ 's', 's' ]).length < 2 ∨
        ('s' :: w.reverse).head? ≠ some 's')) := by
      rintro ⟨-, h2 | h2⟩
      · simp only [List.length_append, List.length_cons, List.length_nil] at h2
        omega
      · exact h2 rfl
    rw [if_neg hg]

/-- C7: with no dictionary entry for `theater`, `transcribe("theater")` leaves
it unchanged — the embedded `the` is protected by the word boundary — while
`perform_preliminar_replacements("The cat")` does rewrite the whole word
`The` to the capitalized diacritic form followed by ` cat`. -/
theorem C7_whole_word_boundary :
    (∀ (d : PiDict) (v : Str), getEntry d (toStr "theater") = none →
      transcribe d (toStr "theater") v = some (toStr "theater")) ∧
    perform_preliminar_replacements (toStr "The cat") =
      some (toStr "The̬ cat") := by
  constructor
  · intro d v h
    have h1 : perform_preliminar_replacements (toStr "theater") =
        some (toStr "theater") := by decide
    have htok : tokenize (toStr "theater") = [toStr "theater"] := by decide
    have h2 : update_words_for_piss_variation d v (toStr "theater") =
        some (toStr "theater") := by
      apply update_inert
      intro t ht _
      rw [htok] at ht
      simp at ht
      subst ht
      have hlow : lowerStr (toStr "theater") = toStr "theater" := by decide
      rw [hlow, lookupVariation]
      simp [h]
    have h3 : transform_words_with_s_suffix d v (toStr "theater") =
        some (toStr "theater") := by
      apply transform_inert
      intro t ht
      rw [htok] at ht
      simp at ht
      subst ht
      rfl
    rw [transcribe]
    simp [h1, h2, h3]
  · decide

/-- C7 witness: the empty dictionary has no entry for `theater`, and
transcription then leaves `theater` unchanged. -/
theorem C7_whole_word_boundary_witness :
    getEntry ([] : PiDict) (toStr "theater") = none ∧
    transcribe [] (toStr "theater") (toStr "L1") = some (toStr "theater") :=
  ⟨by decide, C7_whole_word_boundary.1 [] (toStr "L1") (by decide)⟩

/-- C8: for any dictionary whose keys are non-empty words (the data model of
the spec), the variation substitution is the in-order concatenation of
per-token results; whitespace and punctuation tokens come out unchanged, word
tokens whose lowercased form has no variation entry come out unchanged, and
tokenization itself is lossless, so the whitespace and punctuation of the
output are byte-identical to the input's. -/
theorem C8_update_words_lossless (d : PiDict) (v s : Str)
    (hkeys : ∀ p ∈ d, p.1 ≠ [] ∧ ∀ c ∈ p.1, isWordChar c = true) :
    update_words_for_piss_variation d v s =
        some (((tokenize s).map (updateTok d v)).flatten) ∧
    (∀ t ∈ tokenize s, isWordTok t = false → updateTok d v t = t) ∧
    (∀ t ∈ tokenize s, lookupVariation d v (lowerStr t) = none →
      updateTok d v t = t) ∧
    (tokenize s).flatten = s := by
  refine ⟨update_eq_updateTok d v s, ?_, ?_, tokenize_flatten s⟩
  · intro t ht hw
    exact updateTok_nonword hkeys ht hw
  · intro t _ hmiss
    exact updateTok_miss hmiss

/-- C8 witness at a concrete dictionary and text. -/
theorem C8_update_words_lossless_witness :
    update_words_for_piss_variation
        [(toStr "cat", ⟨toStr "cat", [(toStr "L1", some (toStr "kat"))]⟩)]
        (toStr "L1") (toStr "A cat, two cats!") =
      some (((tokenize (toStr "A cat, two cats!")).map (updateTok
        [(toStr "cat", ⟨toStr "cat", [(toStr "L1", some (toStr "kat"))]⟩)]
        (toStr "L1"))).flatten) :=
  (C8_update_words_lossless
    [(toStr "cat", ⟨toStr "cat", [(toStr "L1", some (toStr "kat"))]⟩)]
    (toStr "L1") (toStr "A cat, two cats!") (by decide)).1

/-- C9: accepted (and customised) replacements are applied to every sentence
of the shared list by one case-insensitive whole-word pass per sentence with
per-occurrence case adaptation; and the engine's `a` transition rebuilds the
whole sentence list that way before advancing the cursor. -/
theorem C9_global_replace_all_sentences (w r : Str) (ss : List Str)
    (d : PiDict) (v : Str) (st : EngineState) (sel piw sent2 : Str)
    (e : PiEntry) (ss2 : List Str) :
    (replace_word_in_all_sentences w (some r) ss =
      some (ss.map fun s => ((tokenize s).map fun t =>
        if isWordTok t = true ∧ ignoreCaseEq t w = true then replace_case t r
        else t).flatten)) ∧
    (st.words.get? st.wordIdx = some sel →
      getEntry d (lowerStr sel) = some e →
      alookup e.PI v = some (some piw) →
      replace_word_in_all_sentences sel (some piw) st.sentences = some ss2 →
      ss2.get? st.sentIdx = some sent2 →
      st.wordIdx + 1 < (split_sentence_into_words sent2).length →
      step d v st .acc = .inr ⟨ss2, st.sentIdx, sent2,
        split_sentence_into_words sent2, st.wordIdx + 1⟩) := by
  constructor
  · exact replace_all_spec w r ss
  · intro hj hE hPI hrep hget hlt
    rw [step]
    simp only [hj, hE, hPI, hrep, hget]
    rw [if_neg (by omega :
      ¬ st.wordIdx + 1 ≥ (split_sentence_into_words sent2).length)]
    simp [normalize, hlt]

/-- C9 witness: accepting `cat → kat` updates sentences 0 and 2 of the list,
not only the current one. -/
theorem C9_global_replace_all_sentences_witness :
    (replace_word_in_all_sentences (toStr "cat") (some (toStr "kat"))
        [toStr "cat here now", toStr "x", toStr "cat too"] =
      some ([toStr "cat here now", toStr "x", toStr "cat too"].map fun s =>
        ((tokenize s).map fun t =>
          if isWordTok t = true ∧ ignoreCaseEq t (toStr "cat") = true then
            replace_case t (toStr "kat") else t).flatten)) ∧
    step [(toStr "cat", ⟨toStr "cat", [(toStr "L1", some (toStr "kat"))]⟩)]
        (toStr "L1")
        ⟨[toStr "cat here now", toStr "x", toStr "cat too"], 0,
          toStr "cat here now", [toStr "cat", toStr "here", toStr "now"], 0⟩
        .acc =
      .inr ⟨[toStr "kat here now", toStr "x", toStr "kat too"], 0,
        toStr "kat here now", split_sentence_into_words (toStr "kat here now"),
        1⟩ :=
  ⟨(C9_global_replace_all_sentences (toStr "cat") (toStr "kat")
      [toStr "cat here now", toStr "x", toStr "cat too"]
      [] (toStr "L1") ⟨[], 0, [], [], 0⟩ [] [] [] ⟨[], []⟩ []).1,
    (C9_global_replace_all_sentences (toStr "cat") (toStr "kat") []
      [(toStr "cat", ⟨toStr "cat", [(toStr "L1", some (toStr "kat"))]⟩)]
      (toStr "L1")
      ⟨[toStr "cat here now", toStr "x", toStr "cat too"], 0,
        toStr "cat here now", [toStr "cat", toStr "here", toStr "now"], 0⟩
      (toStr "cat") (toStr "kat") (toStr "kat here now")
      ⟨toStr "cat", [(toStr "L1", some (toStr "kat"))]⟩
      [toStr "kat here now", toStr "x", toStr "kat too"]).2
      (by decide) (by decide) (by decide) (by decide) (by decide) (by decide)⟩

/-- C10 counterexample: the batch pipeline is not total.  `re.IGNORECASE`
also matches Unicode case-equivalents, so `\bthis\b` matches `thiſ` (long
s); the callback then evaluates `preliminar_replacements['thiſ']` — `thiſ`
lowercases to itself — and raises `KeyError`, so
`perform_preliminar_replacements`, and with it `transcribe`, raises on the
input `thiſ` even though every token is non-empty and the dictionary keys
are non-empty. -/
theorem C10_preliminar_keyerror_cex :
    perform_preliminar_replacements (toStr "thiſ") = none ∧
    transcribe [] (toStr "thiſ") (toStr "L1") = none :=
  ⟨by decide, by decide⟩

/-- C10 amended: tokenization produces only non-empty tokens, so all the
character indexing is in bounds; the variation and suffix stages are total
for every input (the latter for any dictionary with non-empty keys); and the
preliminary stage — whose callback's table lookup is the one reachable
exception — and hence `transcribe` are total on every input free of the
exotic case-equivalents ſ, ı, İ. -/
theorem C10_pipeline_total (d : PiDict) (v t : Str)
    (hkeys : ∀ p ∈ d, p.1 ≠ [])
    (hplain : ∀ c ∈ t, sreExotic c = false) :
    (∀ tok ∈ tokenize t, tok ≠ []) ∧
    (perform_preliminar_replacements t).isSome ∧
    (update_words_for_piss_variation d v t).isSome ∧
    (transform_words_with_s_suffix d v t).isSome ∧
    (transcribe d t v).isSome :=
  ⟨fun _ h => mem_tokenize_ne_nil h, preliminar_isSome_of_plain hplain,
    update_isSome d v t, transform_isSome d v t hkeys,
    transcribe_isSome d t v hkeys hplain⟩

/-- C10 witness at a concrete dictionary and text. -/
theorem C10_pipeline_total_witness :
    (transcribe [(toStr "cat", ⟨toStr "cat", [(toStr "L1", some (toStr "kat"))]⟩)]
      (toStr "The cats saw 2 glass _jars!") (toStr "L1")).isSome :=
  (C10_pipeline_total
    [(toStr "cat", ⟨toStr "cat", [(toStr "L1", some (toStr "kat"))]⟩)]
    (toStr "L1") (toStr "The cats saw 2 glass _jars!") (by decide)
    (by decide)).2.2.2.2

/-- C3 amended: the `c` command advances the word index by 1 with no rollover
branch of its own.  While the incremented index is still within the re-split
word list the cursor moves to it in the same sentence; when it reaches the
end, the inner loop exits, the sentence is written back, and the outer loop
re-enters the SAME sentence at word index 0 — the sentence index does not
advance. -/
theorem C3_customize_step_behavior (d : PiDict) (v : Str) (st : EngineState)
    (raw sel sent2 : Str) (e : PiEntry) (piw : Option Str) (ss2 : List Str)
    (hj : st.words.get? st.wordIdx = some sel)
    (hE : getEntry d (lowerStr sel) = some e)
    (hPI : alookup e.PI v = some piw)
    (hrep : replace_word_in_all_sentences sel
      (if pyStrip raw = [] then piw else some (pyStrip raw)) st.sentences =
        some ss2)
    (hget : ss2.get? st.sentIdx = some sent2) :
    (st.wordIdx + 1 < (split_sentence_into_words sent2).length →
      step d v st (.custom raw) = .inr ⟨ss2, st.sentIdx, sent2,
        split_sentence_into_words sent2, st.wordIdx + 1⟩) ∧
    ((split_sentence_into_words sent2).length ≤ st.wordIdx + 1 →
      st.sentIdx < ss2.length →
      split_sentence_into_words sent2 ≠ [] →
      step d v st (.custom raw) = .inr ⟨ss2.set st.sentIdx sent2, st.sentIdx,
        sent2, split_sentence_into_words sent2, 0⟩) := by
  constructor
  · intro hlt
    rw [step]
    simp only [hj, hE, hPI, hrep, hget]
    simp [normalize, hlt]
  · intro hge hi hne
    rw [step]
    simp only [hj, hE, hPI, hrep, hget]
    rw [normalize]
    simp only []
    rw [if_neg (by simpa using Nat.not_lt.mpr hge)]
    rw [if_pos (by simpa using hi)]
    have hs : (ss2.set st.sentIdx sent2).get? st.sentIdx = some sent2 := by
      rw [List.get?_eq_getElem?]
      simp [List.getElem?_set_self', hi]
    simp only [hs]
    simp [List.isEmpty_iff, hne]

/-- C3 amended, witnessed at both outcomes: customising the middle of a
sentence advances within it; customising its last word re-enters the same
sentence at word 0. -/
theorem C3_customize_step_behavior_witness :
    step [(toStr "a", ⟨toStr "a", [(toStr "L1", some (toStr "q"))]⟩)]
        (toStr "L1")
        ⟨[toStr "a b c"], 0, toStr "a b c",
          [toStr "a", toStr "b", toStr "c"], 0⟩ (.custom (toStr "z")) =
      .inr ⟨[toStr "z b c"], 0, toStr "z b c",
        split_sentence_into_words (toStr "z b c"), 1⟩ ∧
    step [(toStr "b", ⟨toStr "b", [(toStr "L1", some (toStr "x"))]⟩)]
        (toStr "L1")
        ⟨[toStr "a b", toStr "c d"], 0, toStr "a b",
          [toStr "a", toStr "b"], 1⟩ (.custom (toStr "z")) =
      .inr ⟨[toStr "a z", toStr "c d"].set 0 (toStr "a z"), 0, toStr "a z",
        split_sentence_into_words (toStr "a z"), 0⟩ :=
  ⟨(C3_customize_step_behavior
      [(toStr "a", ⟨toStr "a", [(toStr "L1", some (toStr "q"))]⟩)]
      (toStr "L1")
      ⟨[toStr "a b c"], 0, toStr "a b c",
        [toStr "a", toStr "b", toStr "c"], 0⟩
      (toStr "z") (toStr "a") (toStr "z b c")
      ⟨toStr "a", [(toStr "L1", some (toStr "q"))]⟩
      (some (toStr "q")) [toStr "z b c"]
      (by decide) (by decide) (by decide) (by decide) (by decide)).1 (by decide),
    (C3_customize_step_behavior
      [(toStr "b", ⟨toStr "b", [(toStr "L1", some (toStr "x"))]⟩)]
      (toStr "L1")
      ⟨[toStr "a b", toStr "c d"], 0, toStr "a b", [toStr "a", toStr "b"], 1⟩
      (toStr "z") (toStr "b") (toStr "a z")
      ⟨toStr "b", [(toStr "L1", some (toStr "x"))]⟩
      (some (toStr "x")) [toStr "a z", toStr "c d"]
      (by decide) (by decide) (by decide) (by decide) (by decide)).2
      (by decide) (by decide) (by decide)⟩

/-- C4 amended: `transcribe` is not idempotent in general (see the
counterexample: the preliminary replacement's diacritic output re-matches its
own key), but it is idempotent on every input whose transcription is inert:
if no token of the output matches a preliminary key, has a variation lookup
hit, or triggers the single-`s` suffix rule, then transcribing a second time
changes nothing. -/
theorem C4_transcribe_idempotent_on_inert (d : PiDict) (v t t2 : Str)
    (h : transcribe d t v = some t2)
    (h1 : ∀ tok ∈ tokenize t2, isWordTok tok = true →
      ∀ p ∈ preliminar_replacements, ignoreCaseEq tok p.1 = false)
    (h2 : ∀ tok ∈ tokenize t2, pyStrip tok ≠ [] →
      lookupVariation d v (lowerStr tok) = none)
    (h3 : ∀ tok ∈ tokenize t2, sSuffixHit d v tok = false) :
    (transcribe d t v).bind (fun y => transcribe d y v) = transcribe d t v := by
  rw [h]
  have g1 := preliminar_inert h1
  have g2 := update_inert h2
  have g3 := transform_inert h3
  simp [transcribe, g1, g2, g3]

/-- C4 amended witness: a word with no dictionary entry and no preliminary
match transcribes to itself, and a second transcription is a no-op. -/
theorem C4_transcribe_idempotent_on_inert_witness :
    (transcribe [] (toStr "xyz") (toStr "L1")).bind
        (fun y => transcribe [] y (toStr "L1")) =
      transcribe [] (toStr "xyz") (toStr "L1") :=
  C4_transcribe_idempotent_on_inert [] (toStr "L1") (toStr "xyz") (toStr "xyz")
    (by decide) (by decide) (by decide) (by decide)

/-- C5 amended: the three substitution sites adapt case differently.  In
`update_words_for_piss_variation` the claim holds: a first-uppercase
non-all-uppercase word yields the replacement with exactly its first
character uppercased and the rest untouched.  `transform_words_with_s_suffix`
instead applies Python `capitalize` whenever the stem's first character is
uppercase, also lowercasing the remaining characters.
`replace_word_in_sentence` applies `capitalize` only to title-case matches
and leaves the replacement entirely unchanged for any other match that is
not all-uppercase, even one whose first character is uppercase. -/
theorem C5_case_adaptation_behavior :
    (∀ (d : PiDict) (v r : Str) (c : Char) (cs : Str),
      lookupVariation d v (lowerStr (c :: cs)) = some r →
      pyIsUpper (c :: cs) = false → isUpperChar c = true →
      replace_word d v (c :: cs) = some (upperFirst r)) ∧
    (∀ (d : PiDict) (v : Str) (e : PiEntry) (r : Str) (bc : Char) (bcs : Str),
      (bc :: bcs).getLast? ≠ some 's' →
      getEntry d (lowerStr (bc :: bcs)) = some e →
      alookup e.PI v = some (some r) →
      isUpperChar bc = true →
      transform_word d v ((bc :: bcs) ++ [ 's' ]) =
        some (pyCapitalize r ++ [ 's' ])) ∧
    (∀ (w r m : Str), m ≠ [] → (∀ c ∈ m, isWordChar c = true) →
      lowerStr m = lowerStr w →
      replace_word_in_sentence w (some r) m = some (replace_case m r)) ∧
    (∀ (m r : Str), pyIsUpper m = false → pyIsTitle m = true →
      replace_case m r = pyCapitalize r) ∧
    (∀ (m r : Str), pyIsUpper m = false → pyIsTitle m = false →
      replace_case m r = r) := by
  refine ⟨?_, ?_, ?_, ?_, ?_⟩
  · intro d v r c cs hl hu hc
    rw [replace_word]
    simp only [hl]
    rw [if_neg (by simp [hu])]
    rcases hr : r with _ | ⟨rc, rs⟩
    · exact absurd hr (lookupVariation_ne_nil hl)
    · simp [hc, upperFirst]
  · intro d v e r bc bcs hlast hge hPI hbc
    rw [transform_word]
    have hrev : ((bc :: bcs) ++ [ 's' ]).reverse =
        's' :: (bc :: bcs).reverse := by simp
    simp only [hrev]
    have hdl : ((bc :: bcs) ++ [ 's' ]).dropLast = bc :: bcs :=
      List.dropLast_concat
    rw [if_pos ⟨trivial, Or.inr (by rw [List.head?_reverse]; exact hlast)⟩]
    simp only [hdl, hge, hPI]
    simp [hbc]
  · intro w r m hne hword hlow
    rcases hm : m with _ | ⟨c, cs⟩
    · exact absurd hm hne
    · rw [← hm]
      have htok : tokenize m = [m] := by
        rw [hm]
        apply tokenize_homog_eq
        intro d hd
        have h1 : isWordChar d = true :=
          hword d (hm ▸ List.mem_cons_of_mem c hd)
        have h2 : isWordChar c = true :=
          hword c (hm ▸ List.mem_cons_self c cs)
        rw [charClass_eq_zero_iff.mpr h1, charClass_eq_zero_iff.mpr h2]
      have hwt : isWordTok m = true := by
        rw [hm, isWordTok]
        exact hword c (hm ▸ List.mem_cons_self c cs)
      rw [replace_word_in_sentence, wordSubst, htok]
      rw [mapOpt]
      rw [if_pos ⟨hwt, ignoreCaseEq_of_lowerStr_eq hlow⟩]
      simp [mapOpt]
  · intro m r hu ht
    rw [replace_case]
    rw [if_neg (by simp [hu]), if_pos ht]
  · intro m r hu ht
    rw [replace_case]
    rw [if_neg (by simp [hu]), if_neg (by simp [ht])]

/-- C5 amended witness: one concrete instance of each site's behaviour. -/
theorem C5_case_adaptation_behavior_witness :
    replace_word [(toStr "cat", ⟨toStr "cat", [(toStr "L1", some (toStr "kAt"))]⟩)]
        (toStr "L1") ('C' :: toStr "at") = some (upperFirst (toStr "kAt")) ∧
    transform_word [(toStr "cat", ⟨toStr "cat", [(toStr "L1", some (toStr "kAt"))]⟩)]
        (toStr "L1") (('C' :: toStr "at") ++ [ 's' ]) =
      some (pyCapitalize (toStr "kAt") ++ [ 's' ]) ∧
    replace_word_in_sentence (toStr "the") (some (toStr "abc")) (toStr "The") =
      some (replace_case (toStr "The") (toStr "abc")) ∧
    replace_case (toStr "The") (toStr "xYz") = pyCapitalize (toStr "xYz") ∧
    replace_case (toStr "THe") (toStr "xYz") = toStr "xYz" :=
  ⟨C5_case_adaptation_behavior.1
      [(toStr "cat", ⟨toStr "cat", [(toStr "L1", some (toStr "kAt"))]⟩)]
      (toStr "L1") (toStr "kAt") 'C' (toStr "at")
      (by decide) (by decide) (by decide),
    C5_case_adaptation_behavior.2.1
      [(toStr "cat", ⟨toStr "cat", [(toStr "L1", some (toStr "kAt"))]⟩)]
      (toStr "L1") ⟨toStr "cat", [(toStr "L1", some (toStr "kAt"))]⟩
      (toStr "kAt") 'C' (toStr "at")
      (by decide) (by decide) (by decide) (by decide),
    C5_case_adaptation_behavior.2.2.1 (toStr "the") (toStr "abc") (toStr "The")
      (by decide) (by decide) (by decide),
    C5_case_adaptation_behavior.2.2.2.1 (toStr "The") (toStr "xYz")
      (by decide) (by decide),
    C5_case_adaptation_behavior.2.2.2.2 (toStr "THe") (toStr "xYz")
      (by decide) (by decide)⟩

end Transcriber
